import Mathlib

/-!
Verification of the MCTS core of the IB-Research-System repository.

The development shallowly embeds the data model and the search operations of
the repository (src/app.py and src/src/mcts/node.py) in Lean:

* Python floats are modelled as rationals (exact arithmetic stands in for
  IEEE floating point; none of the verified claims depend on rounding).
* The review/mutation LLM calls are external collaborators; they enter the
  embedding as explicit parameters (a mutator function, a review outcome).
* Randomness (random.choice, uuid4) is modelled by explicit oracle
  parameters: an index for random.choice, a fixed placeholder for uuid4.
* Mutable tree nodes become a pure inductive tree; the parent chain used by
  backpropagation becomes the explicit leaf-to-root list of statistics.
-/

/-- State carried by every tree node, mirroring MCTSState.__init__ in
src/src/mcts/node.py (lines 17-41).  Dictionaries become association lists,
floats become rationals.  average_score is an Option: the constructor
initialises it to 0.0 but review code and from_json can store None in the
same attribute.  The trajectory-memory attributes (last_query,
problematic_aspects, action_count, memory_size) play no role in any claim
and are omitted. -/
structure MCTSState where
  research_goal : Option String := none
  current_idea : String := ""
  depth : ℕ := 0
  reward : ℚ := 0
  review_scores : List (String × ℚ) := []
  review_feedback : List (String × String) := []
  average_score : Option ℚ := some 0
  retrieved_knowledge : List String := []
  feedback : List (String × String) := []
  subject : Option String := none
deriving DecidableEq

/-- Visit count N and running value V of one node, the statistics touched by
MCTSNode.update (src/src/mcts/node.py lines 158-162) and by
mcts_backpropagate (src/app.py lines 1726-1742). -/
structure NodeStats where
  visits : ℕ
  value : ℚ
deriving DecidableEq

/-- Embedding of MCTSNode.update (src/src/mcts/node.py lines 158-162):
self.visits += 1; self.value += (reward - self.value) / self.visits.
The division uses the already incremented visit count, exactly as the
Python statement order does. -/
def NodeStats.update (s : NodeStats) (reward : ℚ) : NodeStats :=
  { visits := s.visits + 1
    value := s.value + (reward - s.value) / ((s.visits : ℚ) + 1) }

/-- The MCTS tree as seen by the search functions in src/app.py.  One node
of node.py carries id, state, action, parent, children, visits, value; the
pure embedding keeps state, action, visits, value and the owned ordered
children list.  The id (a random uuid) and the parent back-reference do not
influence any of the embedded algorithms on this type and are dropped. -/
inductive MCTSTree where
  | mk (state : MCTSState) (action : Option String) (visits : ℕ) (value : ℚ)
      (children : List MCTSTree)

/-- Projection: the state of a node. -/
def MCTSTree.state : MCTSTree → MCTSState
  | .mk s _ _ _ _ => s

/-- Projection: the action label of the edge leading to this node. -/
def MCTSTree.action : MCTSTree → Option String
  | .mk _ a _ _ _ => a

/-- Projection: the visit count N. -/
def MCTSTree.visits : MCTSTree → ℕ
  | .mk _ _ v _ _ => v

/-- Projection: the running value V. -/
def MCTSTree.value : MCTSTree → ℚ
  | .mk _ _ _ q _ => q

/-- Projection: the ordered children list. -/
def MCTSTree.children : MCTSTree → List MCTSTree
  | .mk _ _ _ _ cs => cs

mutual
/-- Number of nodes of a tree; termination measure for the stack based
traversals below. -/
def MCTSTree.weight : MCTSTree → ℕ
  | .mk _ _ _ _ cs => 1 + MCTSTree.weightList cs
/-- Total number of nodes of a forest. -/
def MCTSTree.weightList : List MCTSTree → ℕ
  | [] => 0
  | t :: ts => MCTSTree.weight t + MCTSTree.weightList ts
end

mutual
/-- Every node of a tree, root first, in preorder.  Specification device:
traversal order is irrelevant for the claims, only membership matters. -/
def allNodes : MCTSTree → List MCTSTree
  | .mk s a v q cs => .mk s a v q cs :: allNodesList cs
/-- Every node of a forest. -/
def allNodesList : List MCTSTree → List MCTSTree
  | [] => []
  | t :: ts => allNodes t ++ allNodesList ts
end

theorem weightList_eq (l : List MCTSTree) : MCTSTree.weightList l = (l.map MCTSTree.weight).sum := by
  induction l with
  | nil => simp [MCTSTree.weightList]
  | cons t ts ih => simp [MCTSTree.weightList, ih]

theorem weight_lt_of_mem {c t : MCTSTree} (h : c ∈ t.children) : c.weight < t.weight := by
  cases t with
  | mk s a v q cs =>
    simp only [MCTSTree.children] at h
    have h1 : c.weight ≤ (cs.map MCTSTree.weight).sum :=
      List.single_le_sum (by simp) _ (List.mem_map_of_mem _ h)
    simp only [MCTSTree.weight, weightList_eq]
    omega

/-- Total node count of a stack of trees, the measure for the iterative DFS
in best_node_by_score. -/
def stackW (l : List MCTSTree) : ℕ := (l.map MCTSTree.weight).sum

theorem mem_allNodes_self (t : MCTSTree) : t ∈ allNodes t := by
  cases t with
  | mk s a v q cs => simp [allNodes]

theorem mem_allNodesList_of_mem {v : MCTSTree} {c : MCTSTree} {cs : List MCTSTree}
    (hc : c ∈ cs) (hv : v ∈ allNodes c) : v ∈ allNodesList cs := by
  induction cs with
  | nil => simp at hc
  | cons d ds ih =>
    rcases List.mem_cons.mp hc with h | h
    · subst h; simp only [allNodesList, List.mem_append]; exact Or.inl hv
    · simp only [allNodesList, List.mem_append]; exact Or.inr (ih h)

theorem mem_allNodes_of_child {v c t : MCTSTree} (hc : c ∈ t.children)
    (hv : v ∈ allNodes c) : v ∈ allNodes t := by
  cases t with
  | mk s a vi q cs =>
    simp only [MCTSTree.children] at hc
    simp only [allNodes, List.mem_cons]
    exact Or.inr (mem_allNodesList_of_mem hc hv)

/-- Embedding of the Python dictionary access scores.get(key, default) used
by best_node_by_score (src/app.py lines 1784-1786). -/
def scoresGet (scores : List (String × ℚ)) (key : String) (dflt : ℚ) : ℚ :=
  (scores.lookup key).getD dflt

/-- Embedding of the iterative DFS loop of best_node_by_score (src/app.py
lines 1778-1800).  The Python code pops from the end of the stack list and
extends with node.children; the embedding keeps the stack reversed (head is
the top), so popping is head pattern matching and extending pushes
node.children.reverse.  The running pair carries best_score and best.  The
node is skipped when average_score is None or exactly 0, then when either
gating aspect (missing aspects default to 10) is below its threshold, and
otherwise replaces the best pair when its average strictly exceeds the
recorded best score (the initial best_score, float minus infinity, loses
against every first candidate, which the none case of the pair mirrors). -/
def bestScan (min_safety min_analysis : ℚ) :
    List MCTSTree → Option (ℚ × MCTSTree) → Option (ℚ × MCTSTree)
  | [], best => best
  | node :: rest, best =>
    let stack := node.children.reverse ++ rest
    match node.state.average_score with
    | none => bestScan min_safety min_analysis stack best
    | some avg =>
      if avg = 0 then bestScan min_safety min_analysis stack best
      else
        let safety := scoresGet node.state.review_scores "safety_practicality" 10
        let analysis := scoresGet node.state.review_scores "data_analysis_viability" 10
        if safety < min_safety ∨ analysis < min_analysis then
          bestScan min_safety min_analysis stack best
        else
          match best with
          | none => bestScan min_safety min_analysis stack (some (avg, node))
          | some (b, bn) =>
            if b < avg then bestScan min_safety min_analysis stack (some (avg, node))
            else bestScan min_safety min_analysis stack (some (b, bn))
termination_by l _ => stackW l
decreasing_by
  all_goals
    simp only [stackW, List.map_append, List.sum_append, List.map_cons, List.sum_cons,
      List.map_reverse, List.sum_reverse]
    cases node with
    | mk s a v q cs =>
      simp only [MCTSTree.children, MCTSTree.weight, weightList_eq]
      omega

/-- Embedding of best_node_by_score (src/app.py lines 1761-1813): scan the
whole subtree of root and return the surviving best node, or none.  The
Python default thresholds are 6.0 each. -/
def best_node_by_score (root : MCTSTree) (min_safety : ℚ := 6) (min_analysis : ℚ := 6) :
    Option MCTSTree :=
  (bestScan min_safety min_analysis [root] none).map Prod.snd

/-- Candidate predicate exactly as the scan tests it: average_score present
and nonzero, and neither gating aspect, defaulted to 10 when missing from
review_scores, lies strictly below its threshold. -/
def candCode (min_safety min_analysis : ℚ) (t : MCTSTree) : Bool :=
  match t.state.average_score with
  | none => false
  | some avg =>
    decide (avg ≠ 0) &&
      decide (¬(scoresGet t.state.review_scores "safety_practicality" 10 < min_safety ∨
               scoresGet t.state.review_scores "data_analysis_viability" 10 < min_analysis))

/-- Candidate predicate following the words of the specification sentence
for GlobalBestNode: a node qualifies when its averageScore is set and not
exactly 0, and every gating aspect that is present in reviewScores meets
its threshold, an aspect missing from reviewScores passing by default. -/
def claimCandidate (min_safety min_analysis : ℚ) (t : MCTSTree) : Bool :=
  match t.state.average_score with
  | none => false
  | some avg =>
    decide (avg ≠ 0) &&
      (match t.state.review_scores.lookup "safety_practicality" with
       | none => true
       | some s => decide (¬ s < min_safety)) &&
      (match t.state.review_scores.lookup "data_analysis_viability" with
       | none => true
       | some s => decide (¬ s < min_analysis))

/-- The average score read off a node, defaulting to 0; used only to state
maximality of the returned candidate. -/
def avgOf (t : MCTSTree) : ℚ := (t.state.average_score).getD 0

theorem candCode_eq_claimCandidate {min_safety min_analysis : ℚ}
    (hs : min_safety ≤ 10) (ha : min_analysis ≤ 10) (t : MCTSTree) :
    candCode min_safety min_analysis t = claimCandidate min_safety min_analysis t := by
  unfold candCode claimCandidate scoresGet
  cases t.state.average_score with
  | none => rfl
  | some avg =>
    cases hsp : t.state.review_scores.lookup "safety_practicality" with
    | none =>
      cases hdp : t.state.review_scores.lookup "data_analysis_viability" with
      | none => simp [hsp, hdp, hs, ha]
      | some x => simp [hsp, hdp, hs, ha]
    | some s =>
      cases hdp : t.state.review_scores.lookup "data_analysis_viability" with
      | none => simp [hsp, hdp, hs, ha]
      | some x => simp [hsp, hdp, Bool.and_assoc]

theorem allNodesList_append (l1 l2 : List MCTSTree) :
    allNodesList (l1 ++ l2) = allNodesList l1 ++ allNodesList l2 := by
  induction l1 with
  | nil => simp [allNodesList]
  | cons t ts ih => simp [allNodesList, ih]

theorem mem_allNodesList_iff {v : MCTSTree} {l : List MCTSTree} :
    v ∈ allNodesList l ↔ ∃ u ∈ l, v ∈ allNodes u := by
  induction l with
  | nil => simp [allNodesList]
  | cons t ts ih =>
    simp only [allNodesList, List.mem_append, ih, List.mem_cons]
    constructor
    · rintro (h | ⟨u, hu, hv⟩)
      · exact ⟨t, Or.inl rfl, h⟩
      · exact ⟨u, Or.inr hu, hv⟩
    · rintro ⟨u, hu | hu, hv⟩
      · subst hu; exact Or.inl hv
      · exact Or.inr ⟨u, hu, hv⟩

theorem mem_allNodesList_reverse {v : MCTSTree} {l : List MCTSTree} :
    v ∈ allNodesList l.reverse ↔ v ∈ allNodesList l := by
  simp [mem_allNodesList_iff]

theorem mem_allNodesList_stack {v node : MCTSTree} {rest : List MCTSTree} :
    v ∈ allNodesList (node :: rest) ↔
      v = node ∨ v ∈ allNodesList (node.children.reverse ++ rest) := by
  cases node with
  | mk s a vi q cs =>
    simp only [allNodesList, allNodesList_append, allNodes, List.mem_append, List.mem_cons,
      MCTSTree.children, mem_allNodesList_reverse]
    tauto

theorem candCode_false_avg_none {ms ma : ℚ} {t : MCTSTree}
    (h : t.state.average_score = none) : candCode ms ma t = false := by
  unfold candCode
  rw [h]

theorem candCode_false_avg_zero {ms ma : ℚ} {t : MCTSTree}
    (h : t.state.average_score = some 0) : candCode ms ma t = false := by
  unfold candCode
  rw [h]
  simp

theorem candCode_false_gate {ms ma : ℚ} {t : MCTSTree} {a : ℚ}
    (h : t.state.average_score = some a)
    (hg : scoresGet t.state.review_scores "safety_practicality" 10 < ms ∨
          scoresGet t.state.review_scores "data_analysis_viability" 10 < ma) :
    candCode ms ma t = false := by
  unfold candCode
  rw [h]
  simp only [Bool.and_eq_false_iff, decide_eq_false_iff_not, not_not]
  exact Or.inr hg

theorem candCode_true_of {ms ma : ℚ} {t : MCTSTree} {a : ℚ}
    (h : t.state.average_score = some a) (ha : ¬ a = 0)
    (hg : ¬(scoresGet t.state.review_scores "safety_practicality" 10 < ms ∨
            scoresGet t.state.review_scores "data_analysis_viability" 10 < ma)) :
    candCode ms ma t = true := by
  unfold candCode
  rw [h]
  simp only [Bool.and_eq_true, decide_eq_true_eq]
  exact ⟨ha, hg⟩

theorem bestScan_step_avg_none {ms ma : ℚ} {node : MCTSTree} {rest : List MCTSTree}
    {best : Option (ℚ × MCTSTree)} (h : node.state.average_score = none) :
    bestScan ms ma (node :: rest) best =
      bestScan ms ma (node.children.reverse ++ rest) best := by
  simp only [bestScan, h]

theorem bestScan_step_avg_zero {ms ma : ℚ} {node : MCTSTree} {rest : List MCTSTree}
    {best : Option (ℚ × MCTSTree)} (h : node.state.average_score = some 0) :
    bestScan ms ma (node :: rest) best =
      bestScan ms ma (node.children.reverse ++ rest) best := by
  simp only [bestScan, h, eq_self_iff_true, if_true]

theorem bestScan_step_gate {ms ma : ℚ} {node : MCTSTree} {rest : List MCTSTree}
    {best : Option (ℚ × MCTSTree)} {avg : ℚ} (h : node.state.average_score = some avg)
    (h0 : ¬ avg = 0)
    (hg : scoresGet node.state.review_scores "safety_practicality" 10 < ms ∨
          scoresGet node.state.review_scores "data_analysis_viability" 10 < ma) :
    bestScan ms ma (node :: rest) best =
      bestScan ms ma (node.children.reverse ++ rest) best := by
  simp only [bestScan, h, if_neg h0, if_pos hg]

theorem bestScan_step_take {ms ma : ℚ} {node : MCTSTree} {rest : List MCTSTree}
    {avg : ℚ} (h : node.state.average_score = some avg) (h0 : ¬ avg = 0)
    (hg : ¬(scoresGet node.state.review_scores "safety_practicality" 10 < ms ∨
            scoresGet node.state.review_scores "data_analysis_viability" 10 < ma)) :
    bestScan ms ma (node :: rest) none =
      bestScan ms ma (node.children.reverse ++ rest) (some (avg, node)) := by
  simp only [bestScan, h, if_neg h0, if_neg hg]

theorem bestScan_step_improve {ms ma : ℚ} {node bn : MCTSTree} {rest : List MCTSTree}
    {avg b : ℚ} (h : node.state.average_score = some avg) (h0 : ¬ avg = 0)
    (hg : ¬(scoresGet node.state.review_scores "safety_practicality" 10 < ms ∨
            scoresGet node.state.review_scores "data_analysis_viability" 10 < ma))
    (hlt : b < avg) :
    bestScan ms ma (node :: rest) (some (b, bn)) =
      bestScan ms ma (node.children.reverse ++ rest) (some (avg, node)) := by
  simp only [bestScan, h, if_neg h0, if_neg hg, if_pos hlt]

theorem bestScan_step_keep {ms ma : ℚ} {node bn : MCTSTree} {rest : List MCTSTree}
    {avg b : ℚ} (h : node.state.average_score = some avg) (h0 : ¬ avg = 0)
    (hg : ¬(scoresGet node.state.review_scores "safety_practicality" 10 < ms ∨
            scoresGet node.state.review_scores "data_analysis_viability" 10 < ma))
    (hlt : ¬ b < avg) :
    bestScan ms ma (node :: rest) (some (b, bn)) =
      bestScan ms ma (node.children.reverse ++ rest) (some (b, bn)) := by
  simp only [bestScan, h, if_neg h0, if_neg hg, if_neg hlt]

theorem bestScan_none_iff (ms ma : ℚ) :
    ∀ (l : List MCTSTree) (acc : Option (ℚ × MCTSTree)),
      bestScan ms ma l acc = none ↔
        acc = none ∧ ∀ v ∈ allNodesList l, candCode ms ma v = false := by
  intro l acc
  induction l, acc using bestScan.induct with
  | min_safety => exact ms
  | min_analysis => exact ma
  | case1 best => simp [bestScan, allNodesList]
  | case2 node rest best stack havg ih =>
    unfold stack at ih
    rw [bestScan_step_avg_none havg, ih]
    constructor
    · rintro ⟨hb, hall⟩
      refine ⟨hb, fun v hv => ?_⟩
      rcases mem_allNodesList_stack.mp hv with h | h
      · subst h; exact candCode_false_avg_none havg
      · exact hall v h
    · rintro ⟨hb, hall⟩
      exact ⟨hb, fun v hv => hall v (mem_allNodesList_stack.mpr (Or.inr hv))⟩
  | case3 node rest best stack havg ih =>
    unfold stack at ih
    rw [bestScan_step_avg_zero havg, ih]
    constructor
    · rintro ⟨hb, hall⟩
      refine ⟨hb, fun v hv => ?_⟩
      rcases mem_allNodesList_stack.mp hv with h | h
      · subst h; exact candCode_false_avg_zero havg
      · exact hall v h
    · rintro ⟨hb, hall⟩
      exact ⟨hb, fun v hv => hall v (mem_allNodesList_stack.mpr (Or.inr hv))⟩
  | case4 node rest best stack avg havg h0 saf ana hg ih =>
    unfold stack at ih
    rw [bestScan_step_gate havg h0 hg, ih]
    constructor
    · rintro ⟨hb, hall⟩
      refine ⟨hb, fun v hv => ?_⟩
      rcases mem_allNodesList_stack.mp hv with h | h
      · subst h; exact candCode_false_gate havg hg
      · exact hall v h
    · rintro ⟨hb, hall⟩
      exact ⟨hb, fun v hv => hall v (mem_allNodesList_stack.mpr (Or.inr hv))⟩
  | case5 node rest stack avg havg h0 saf ana hg ih =>
    unfold stack at ih
    rw [bestScan_step_take havg h0 hg, ih]
    simp only [reduceCtorEq, false_and, false_iff, not_and, not_forall]
    intro
    exact ⟨node, mem_allNodesList_stack.mpr (Or.inl rfl), by
      simp [candCode_true_of havg h0 hg]⟩
  | case6 node rest stack avg havg h0 saf ana hg b bn hlt ih =>
    unfold stack at ih
    rw [bestScan_step_improve havg h0 hg hlt, ih]
    simp
  | case7 node rest stack avg havg h0 saf ana hg b bn hlt ih =>
    unfold stack at ih
    rw [bestScan_step_keep havg h0 hg hlt, ih]
    simp

theorem bestScan_sound (ms ma : ℚ) (P : MCTSTree → Prop) :
    ∀ (l : List MCTSTree) (acc : Option (ℚ × MCTSTree)),
      (∀ v ∈ allNodesList l, P v) →
      (∀ b bn, acc = some (b, bn) →
        candCode ms ma bn = true ∧ bn.state.average_score = some b ∧ P bn) →
      ∀ b bn, bestScan ms ma l acc = some (b, bn) →
        candCode ms ma bn = true ∧ bn.state.average_score = some b ∧ P bn := by
  intro l acc
  induction l, acc using bestScan.induct with
  | min_safety => exact ms
  | min_analysis => exact ma
  | case1 best =>
    intro _ hacc b bn h
    exact hacc b bn (by simpa [bestScan] using h)
  | case2 node rest best stack havg ih =>
    unfold stack at ih
    intro hall hacc b bn h
    rw [bestScan_step_avg_none havg] at h
    exact ih (fun v hv => hall v (mem_allNodesList_stack.mpr (Or.inr hv))) hacc b bn h
  | case3 node rest best stack havg ih =>
    unfold stack at ih
    intro hall hacc b bn h
    rw [bestScan_step_avg_zero havg] at h
    exact ih (fun v hv => hall v (mem_allNodesList_stack.mpr (Or.inr hv))) hacc b bn h
  | case4 node rest best stack avg havg h0 saf ana hg ih =>
    unfold stack at ih
    intro hall hacc b bn h
    rw [bestScan_step_gate havg h0 hg] at h
    exact ih (fun v hv => hall v (mem_allNodesList_stack.mpr (Or.inr hv))) hacc b bn h
  | case5 node rest stack avg havg h0 saf ana hg ih =>
    unfold stack at ih
    intro hall hacc b bn h
    rw [bestScan_step_take havg h0 hg] at h
    refine ih (fun v hv => hall v (mem_allNodesList_stack.mpr (Or.inr hv))) ?_ b bn h
    rintro c cn hc
    cases hc
    exact ⟨candCode_true_of havg h0 hg, havg,
      hall node (mem_allNodesList_stack.mpr (Or.inl rfl))⟩
  | case6 node rest stack avg havg h0 saf ana hg b0 bn0 hlt ih =>
    unfold stack at ih
    intro hall hacc b bn h
    rw [bestScan_step_improve havg h0 hg hlt] at h
    refine ih (fun v hv => hall v (mem_allNodesList_stack.mpr (Or.inr hv))) ?_ b bn h
    rintro c cn hc
    cases hc
    exact ⟨candCode_true_of havg h0 hg, havg,
      hall node (mem_allNodesList_stack.mpr (Or.inl rfl))⟩
  | case7 node rest stack avg havg h0 saf ana hg b0 bn0 hlt ih =>
    unfold stack at ih
    intro hall hacc b bn h
    rw [bestScan_step_keep havg h0 hg hlt] at h
    exact ih (fun v hv => hall v (mem_allNodesList_stack.mpr (Or.inr hv)))
      (fun c cn hc => hacc c cn hc) b bn h

theorem bestScan_dominates (ms ma : ℚ) :
    ∀ (l : List MCTSTree) (acc : Option (ℚ × MCTSTree)) (b : ℚ) (bn : MCTSTree),
      bestScan ms ma l acc = some (b, bn) →
      (∀ c cn, acc = some (c, cn) → c ≤ b) ∧
      (∀ v ∈ allNodesList l, candCode ms ma v = true → avgOf v ≤ b) := by
  intro l acc
  induction l, acc using bestScan.induct with
  | min_safety => exact ms
  | min_analysis => exact ma
  | case1 best =>
    intro b bn h
    simp only [bestScan] at h
    subst h
    refine ⟨fun c cn hc => ?_, by simp [allNodesList]⟩
    cases hc
    exact le_refl _
  | case2 node rest best stack havg ih =>
    unfold stack at ih
    intro b bn h
    rw [bestScan_step_avg_none havg] at h
    obtain ⟨hacc, hall⟩ := ih b bn h
    refine ⟨hacc, fun v hv hc => ?_⟩
    rcases mem_allNodesList_stack.mp hv with rfl | hv2
    · rw [candCode_false_avg_none havg] at hc; cases hc
    · exact hall v hv2 hc
  | case3 node rest best stack havg ih =>
    unfold stack at ih
    intro b bn h
    rw [bestScan_step_avg_zero havg] at h
    obtain ⟨hacc, hall⟩ := ih b bn h
    refine ⟨hacc, fun v hv hc => ?_⟩
    rcases mem_allNodesList_stack.mp hv with rfl | hv2
    · rw [candCode_false_avg_zero havg] at hc; cases hc
    · exact hall v hv2 hc
  | case4 node rest best stack avg havg h0 saf ana hg ih =>
    unfold stack at ih
    intro b bn h
    rw [bestScan_step_gate havg h0 hg] at h
    obtain ⟨hacc, hall⟩ := ih b bn h
    refine ⟨hacc, fun v hv hc => ?_⟩
    rcases mem_allNodesList_stack.mp hv with rfl | hv2
    · rw [candCode_false_gate havg hg] at hc; cases hc
    · exact hall v hv2 hc
  | case5 node rest stack avg havg h0 saf ana hg ih =>
    unfold stack at ih
    intro b bn h
    rw [bestScan_step_take havg h0 hg] at h
    obtain ⟨hacc, hall⟩ := ih b bn h
    have havgle : avg ≤ b := hacc avg node rfl
    refine ⟨fun c cn hc => (by cases hc), fun v hv hc => ?_⟩
    rcases mem_allNodesList_stack.mp hv with rfl | hv2
    · simpa [avgOf, havg] using havgle
    · exact hall v hv2 hc
  | case6 node rest stack avg havg h0 saf ana hg b0 bn0 hlt ih =>
    unfold stack at ih
    intro b bn h
    rw [bestScan_step_improve havg h0 hg hlt] at h
    obtain ⟨hacc, hall⟩ := ih b bn h
    have havgle : avg ≤ b := hacc avg node rfl
    refine ⟨fun c cn hc => ?_, fun v hv hc => ?_⟩
    · cases hc; exact le_of_lt (lt_of_lt_of_le hlt havgle)
    · rcases mem_allNodesList_stack.mp hv with rfl | hv2
      · simpa [avgOf, havg] using havgle
      · exact hall v hv2 hc
  | case7 node rest stack avg havg h0 saf ana hg b0 bn0 hlt ih =>
    unfold stack at ih
    intro b bn h
    rw [bestScan_step_keep havg h0 hg hlt] at h
    obtain ⟨hacc, hall⟩ := ih b bn h
    have hb0 : b0 ≤ b := hacc b0 bn0 rfl
    refine ⟨fun c cn hc => (by cases hc; exact hb0), fun v hv hc => ?_⟩
    rcases mem_allNodesList_stack.mp hv with rfl | hv2
    · have : avg ≤ b0 := not_lt.mp hlt
      calc avgOf v = avg := by simp [avgOf, havg]
        _ ≤ b0 := this
        _ ≤ b := hb0
    · exact hall v hv2 hc

theorem allNodesList_singleton (t : MCTSTree) : allNodesList [t] = allNodes t := by
  simp [allNodesList]

/-- C1 (amended): for gating thresholds within the 1-10 score scale
(min_safety, min_analysis at most 10), best_node_by_score never returns a
node whose averageScore is unset or exactly 0, nor one whose gating aspect
present in reviewScores scores below its threshold; an aspect missing from
reviewScores passes by default; among the qualifying candidates it returns
one with maximum averageScore, and it returns none exactly when no node of
the tree qualifies.  The restriction to thresholds at most 10 is forced:
the code gives a missing aspect the default score 10, so a threshold above
10 rejects nodes that the unrestricted claim counts as passing (see the
counterexample theorem). -/
theorem best_node_by_score_gated_max (ms ma : ℚ) (t : MCTSTree)
    (hms : ms ≤ 10) (hma : ma ≤ 10) :
    (best_node_by_score t ms ma = none →
      ∀ v ∈ allNodes t, claimCandidate ms ma v = false) ∧
    (∀ n, best_node_by_score t ms ma = some n →
      n ∈ allNodes t ∧ claimCandidate ms ma n = true ∧
      ∀ v ∈ allNodes t, claimCandidate ms ma v = true → avgOf v ≤ avgOf n) := by
  constructor
  · intro h v hv
    have h2 : bestScan ms ma [t] none = none := by
      unfold best_node_by_score at h
      exact Option.map_eq_none'.mp h
    have h3 := (bestScan_none_iff ms ma [t] none).mp h2
    rw [← candCode_eq_claimCandidate hms hma]
    exact h3.2 v (by rw [allNodesList_singleton]; exact hv)
  · intro n h
    unfold best_node_by_score at h
    obtain ⟨⟨b, bn⟩, hscan, hbn⟩ := Option.map_eq_some'.mp h
    simp only at hbn
    subst hbn
    obtain ⟨hcand, havg, hmem⟩ :=
      bestScan_sound ms ma (fun v => v ∈ allNodes t) [t] none
        (fun v hv => by rwa [allNodesList_singleton] at hv)
        (by rintro c cn hc; cases hc) b bn hscan
    obtain ⟨-, hdom⟩ := bestScan_dominates ms ma [t] none b bn hscan
    refine ⟨hmem, by rwa [← candCode_eq_claimCandidate hms hma], fun v hv hc => ?_⟩
    have : avgOf v ≤ b := by
      refine hdom v (by rwa [allNodesList_singleton]) ?_
      rwa [candCode_eq_claimCandidate hms hma]
    simpa [avgOf, havg] using this

/-- Single reviewed node with average score 5 and no per-aspect scores;
with a gating threshold of 11 the scan rejects it through the default
aspect score 10. -/
def cexC1 : MCTSTree :=
  .mk { current_idea := "idea", average_score := some 5 } none 1 0 []

/-- C1 (counterexample): the claim quantifies over every pair of gating
thresholds, but with min_safety = 11 the single node of this tree is a
candidate in the sense of the claim (averageScore 5, no gating aspect
present, missing aspects pass by default), yet best_node_by_score returns
none: the code fills a missing aspect with the default score 10 and 10 is
below the threshold 11, so a missing aspect does not always pass. -/
theorem best_node_by_score_missing_aspect_cex :
    claimCandidate 11 6 cexC1 = true ∧ cexC1 ∈ allNodes cexC1 ∧
    best_node_by_score cexC1 11 6 = none := by
  refine ⟨rfl, mem_allNodes_self _, ?_⟩
  have hg : scoresGet cexC1.state.review_scores "safety_practicality" 10 < 11 ∨
      scoresGet cexC1.state.review_scores "data_analysis_viability" 10 < 6 := by
    left
    norm_num [scoresGet, cexC1, MCTSTree.state]
  have h1 : bestScan 11 6 [cexC1] none =
      bestScan 11 6 (cexC1.children.reverse ++ []) none :=
    bestScan_step_gate rfl (by norm_num) hg
  unfold best_node_by_score
  rw [h1]
  simp [bestScan, cexC1, MCTSTree.children]

/-- Reviewed node with average score 8 and a present safety score 7. -/
def witC1 : MCTSTree :=
  .mk { current_idea := "good idea", average_score := some 8,
        review_scores := [("safety_practicality", 7)] } none 2 0 []

theorem best_node_by_score_gated_max_witness :
    best_node_by_score witC1 6 6 = some witC1 ∧ claimCandidate 6 6 witC1 = true := by
  have hg : ¬(scoresGet witC1.state.review_scores "safety_practicality" 10 < 6 ∨
      scoresGet witC1.state.review_scores "data_analysis_viability" 10 < 6) := by
    decide
  have h1 : bestScan 6 6 [witC1] none =
      bestScan 6 6 (witC1.children.reverse ++ []) (some (8, witC1)) :=
    bestScan_step_take rfl (by norm_num) hg
  have hbest : best_node_by_score witC1 6 6 = some witC1 := by
    unfold best_node_by_score
    rw [h1]
    simp [bestScan, witC1, MCTSTree.children]
  exact ⟨hbest,
    ((best_node_by_score_gated_max 6 6 witC1 (by norm_num) (by norm_num)).2
      witC1 hbest).2.1⟩

/-- Emptiness of a list of trees is decidable by its outermost constructor;
needed because DecidableEq does not derive for the nested tree type. -/
instance (l : List MCTSTree) : Decidable (l = []) :=
  match l with
  | [] => isTrue rfl
  | _ :: _ => isFalse (fun h => List.noConfusion h)

/-- The unvisited children of a node, the list Python builds at the top of
the mcts_select loop (src/app.py line 1653). -/
def unvisChildren (t : MCTSTree) : List MCTSTree :=
  t.children.filter fun c => c.visits == 0

/-- Embedding of the argmax loop of mcts_select (src/app.py lines
1664-1680): best_child starts as None with best_uct minus infinity, and a
child strictly improving the running best replaces it.  Minus infinity
loses against every finite float, which the none case mirrors.  The score
function is an abstract parameter standing for the float UCT formula
value + 1.414 * sqrt(ln(max(parentN, 1)) / childN); the formula itself is
transcendental float arithmetic, and no claim below depends on its values.
The infinite-priority branch for a child with zero visits is dead code
here, because this loop only runs when the unvisited-children list of the
parent is empty. -/
def bestByUCT (score : MCTSTree → ℚ) (cs : List MCTSTree) : Option (ℚ × MCTSTree) :=
  cs.foldl
    (fun acc c =>
      match acc with
      | none => some (score c, c)
      | some (b, bc) => if b < score c then some (score c, c) else some (b, bc))
    none

theorem bestByUCT_aux_mem (score : MCTSTree → ℚ) (P : MCTSTree → Prop) :
    ∀ (cs : List MCTSTree) (acc : Option (ℚ × MCTSTree)),
      (∀ b bc, acc = some (b, bc) → P bc) → (∀ c ∈ cs, P c) →
      ∀ b bc,
        cs.foldl
          (fun acc c =>
            match acc with
            | none => some (score c, c)
            | some (b, bc) => if b < score c then some (score c, c) else some (b, bc))
          acc = some (b, bc) → P bc := by
  intro cs
  induction cs with
  | nil =>
    intro acc hacc _ b bc h
    exact hacc b bc h
  | cons c cs ih =>
    intro acc hacc hcs b bc h
    rw [List.foldl_cons] at h
    refine ih _ ?_ (fun d hd => hcs d (List.mem_cons_of_mem _ hd)) b bc h
    intro b2 bc2 hb
    match acc with
    | none =>
      simp only at hb
      cases hb
      exact hcs c (List.mem_cons_self c cs)
    | some (b3, bc3) =>
      simp only at hb
      by_cases hlt : b3 < score c
      · rw [if_pos hlt] at hb
        cases hb
        exact hcs c (List.mem_cons_self c cs)
      · rw [if_neg hlt] at hb
        cases hb
        exact hacc _ _ rfl

theorem bestByUCT_mem {score : MCTSTree → ℚ} {cs : List MCTSTree} {b : ℚ}
    {bc : MCTSTree} (h : bestByUCT score cs = some (b, bc)) : bc ∈ cs := by
  exact bestByUCT_aux_mem score (fun c => c ∈ cs) cs none
    (by rintro _ _ hc; cases hc) (fun c hc => hc) b bc h

/-- Embedding of the mcts_select loop (src/app.py lines 1647-1689).  The
result pair carries the returned node and the list of values taken by the
loop variable current, root first: the nodes reached during descent.  The
branches mirror the Python control flow in order: the unvisited-children
check with random.choice (the oracle index pick stands for the random
draw), the leaf check, the UCT argmax (with the defensive best_child is
None return), and the bottom check that returns the chosen child when it
is childless or its depth has reached maxDepth; otherwise the loop repeats
from the chosen child. -/
def mcts_select_go (pick : ℕ) (score : MCTSTree → MCTSTree → ℚ) (maxDepth : ℕ)
    (t : MCTSTree) : MCTSTree × List MCTSTree :=
  let unvis := unvisChildren t
  if unvis ≠ [] then ((unvis[pick % unvis.length]?).getD t, [t])
  else if t.children = [] then (t, [t])
  else
    match hb : bestByUCT (score t) t.children with
    | none => (t, [t])
    | some (_, best) =>
      if best.children = [] ∨ maxDepth ≤ best.state.depth then (best, [t, best])
      else
        have : best.weight < t.weight := weight_lt_of_mem (bestByUCT_mem hb)
        let r := mcts_select_go pick score maxDepth best
        (r.1, t :: r.2)
termination_by t.weight

/-- The node returned by SELECT. -/
def mcts_select (pick : ℕ) (score : MCTSTree → MCTSTree → ℚ) (maxDepth : ℕ)
    (t : MCTSTree) : MCTSTree :=
  (mcts_select_go pick score maxDepth t).1

/-- The nodes reached during the SELECT descent, root first. -/
def selectReached (pick : ℕ) (score : MCTSTree → MCTSTree → ℚ) (maxDepth : ℕ)
    (t : MCTSTree) : List MCTSTree :=
  (mcts_select_go pick score maxDepth t).2

theorem select_go_unvis {pick : ℕ} {score : MCTSTree → MCTSTree → ℚ} {maxD : ℕ}
    {t : MCTSTree} (h : unvisChildren t ≠ []) :
    mcts_select_go pick score maxD t =
      (((unvisChildren t)[pick % (unvisChildren t).length]?).getD t, [t]) := by
  rw [mcts_select_go]
  rw [if_pos h]

theorem select_go_leaf {pick : ℕ} {score : MCTSTree → MCTSTree → ℚ} {maxD : ℕ}
    {t : MCTSTree} (h : unvisChildren t = []) (hc : t.children = []) :
    mcts_select_go pick score maxD t = (t, [t]) := by
  rw [mcts_select_go]
  rw [if_neg (by simpa using h), if_pos hc]

theorem select_go_stop {pick : ℕ} {score : MCTSTree → MCTSTree → ℚ} {maxD : ℕ}
    {t best : MCTSTree} {f : ℚ} (h : unvisChildren t = []) (hc : ¬ t.children = [])
    (hb : bestByUCT (score t) t.children = some (f, best))
    (hstop : best.children = [] ∨ maxD ≤ best.state.depth) :
    mcts_select_go pick score maxD t = (best, [t, best]) := by
  rw [mcts_select_go]
  rw [if_neg (by simpa using h), if_neg hc]
  split
  · next heq => rw [hb] at heq; cases heq
  · next f2 b2 heq =>
    rw [hb] at heq
    cases heq
    rw [if_pos hstop]

theorem select_go_descend {pick : ℕ} {score : MCTSTree → MCTSTree → ℚ} {maxD : ℕ}
    {t best : MCTSTree} {f : ℚ} (h : unvisChildren t = []) (hc : ¬ t.children = [])
    (hb : bestByUCT (score t) t.children = some (f, best))
    (hstop : ¬(best.children = [] ∨ maxD ≤ best.state.depth)) :
    mcts_select_go pick score maxD t =
      ((mcts_select_go pick score maxD best).1,
        t :: (mcts_select_go pick score maxD best).2) := by
  rw [mcts_select_go]
  rw [if_neg (by simpa using h), if_neg hc]
  split
  · next heq => rw [hb] at heq; cases heq
  · next f2 b2 heq =>
    rw [hb] at heq
    cases heq
    rw [if_neg hstop]

theorem select_go_none {pick : ℕ} {score : MCTSTree → MCTSTree → ℚ} {maxD : ℕ}
    {t : MCTSTree} (h : unvisChildren t = []) (hc : ¬ t.children = [])
    (hb : bestByUCT (score t) t.children = none) :
    mcts_select_go pick score maxD t = (t, [t]) := by
  rw [mcts_select_go]
  rw [if_neg (by simpa using h), if_neg hc]
  split
  · rfl
  · next f2 b2 heq => rw [hb] at heq; cases heq

theorem pick_mem {l : List MCTSTree} {d : MCTSTree} (h : l ≠ []) (pick : ℕ) :
    (l[pick % l.length]?).getD d ∈ l := by
  have hlen : 0 < l.length := List.length_pos.mpr h
  have hlt : pick % l.length < l.length := Nat.mod_lt _ hlen
  rw [List.getElem?_eq_getElem hlt]
  exact Option.getD_some ▸ List.getElem_mem hlt

theorem selectReached_cons (pick : ℕ) (score : MCTSTree → MCTSTree → ℚ)
    (maxD : ℕ) (t : MCTSTree) :
    ∃ l, selectReached pick score maxD t = t :: l := by
  unfold selectReached
  by_cases h : unvisChildren t ≠ []
  · rw [select_go_unvis h]; exact ⟨[], rfl⟩
  · have h2 : unvisChildren t = [] := not_not.mp h
    by_cases hc : t.children = []
    · rw [select_go_leaf h2 hc]; exact ⟨[], rfl⟩
    · match hb : bestByUCT (score t) t.children with
      | none => rw [select_go_none h2 hc hb]; exact ⟨[], rfl⟩
      | some (f, best) =>
        by_cases hstop : best.children = [] ∨ maxD ≤ best.state.depth
        · rw [select_go_stop h2 hc hb hstop]; exact ⟨[best], rfl⟩
        · rw [select_go_descend h2 hc hb hstop]
          exact ⟨(mcts_select_go pick score maxD best).2, rfl⟩

theorem select_reached_unvis (pick : ℕ) (score : MCTSTree → MCTSTree → ℚ)
    (maxD : ℕ) :
    ∀ (t : MCTSTree), ∀ u ∈ selectReached pick score maxD t,
      unvisChildren u ≠ [] → u.state.depth < maxD →
      mcts_select pick score maxD t ∈ unvisChildren u := by
  intro t
  induction t using mcts_select_go.induct pick score maxD with
  | case1 x uv h =>
    intro u hu hu2 hu3
    unfold selectReached at hu
    unfold mcts_select
    rw [select_go_unvis h] at hu ⊢
    simp only [List.mem_singleton] at hu
    subst hu
    exact pick_mem hu2 pick
  | case2 x uv h hc =>
    intro u hu hu2 hu3
    have h2 : unvisChildren x = [] := not_not.mp h
    unfold selectReached at hu
    rw [select_go_leaf h2 hc] at hu
    simp only [List.mem_singleton] at hu
    subst hu
    exact absurd h2 hu2
  | case3 x uv h hc hb =>
    intro u hu hu2 hu3
    have h2 : unvisChildren x = [] := not_not.mp h
    unfold selectReached at hu
    rw [select_go_none h2 hc hb] at hu
    simp only [List.mem_singleton] at hu
    subst hu
    exact absurd h2 hu2
  | case4 x uv h hc f best hb hstop =>
    intro u hu hu2 hu3
    have h2 : unvisChildren x = [] := not_not.mp h
    unfold selectReached at hu
    rw [select_go_stop h2 hc hb hstop] at hu
    simp only [List.mem_cons, List.mem_singleton, List.not_mem_nil, or_false] at hu
    rcases hu with hu | hu
    · exact absurd h2 (hu ▸ hu2)
    · subst hu
      rcases hstop with hstop | hstop
      · exact absurd (by rw [unvisChildren, hstop]; rfl) hu2
      · exact absurd hstop (not_le.mpr hu3)
  | case5 x uv h hc f best hb hstop hw ih =>
    intro u hu hu2 hu3
    have h2 : unvisChildren x = [] := not_not.mp h
    unfold selectReached at hu
    rw [select_go_descend h2 hc hb hstop] at hu
    unfold mcts_select
    rw [select_go_descend h2 hc hb hstop]
    rcases List.mem_cons.mp hu with hu | hu
    · exact absurd h2 (hu ▸ hu2)
    · exact ih u hu hu2 hu3

/-- C2 (amended): during SELECT descent, whenever the reached node still
has room to descend (its depth is below maxDepth) and it has at least one
child with zero visits, the returned node is one of those unvisited
children, chosen by the random.choice oracle; in particular the root gets
this treatment unconditionally, and the choice is independent of the UCT
score function, which the statement quantifies over.  The restriction to
reached nodes of depth below maxDepth is forced: a deeper node reached by
the UCT descent is returned by the bottom depth check of the loop before
its unvisited children are examined (see the counterexample theorem);
trees built by mcts_expand never give children to such nodes, but the
claim quantifies over every tree. -/
theorem mcts_select_unvisited_first (pick : ℕ) (score : MCTSTree → MCTSTree → ℚ)
    (maxD : ℕ) (t : MCTSTree) :
    (unvisChildren t ≠ [] →
      mcts_select pick score maxD t =
        ((unvisChildren t)[pick % (unvisChildren t).length]?).getD t ∧
      mcts_select pick score maxD t ∈ unvisChildren t) ∧
    (∀ u ∈ selectReached pick score maxD t, unvisChildren u ≠ [] →
      u.state.depth < maxD → mcts_select pick score maxD t ∈ unvisChildren u) := by
  constructor
  · intro h
    unfold mcts_select
    rw [select_go_unvis h]
    exact ⟨rfl, pick_mem h pick⟩
  · exact select_reached_unvis pick score maxD t

/-- C5 (amended): every node other than the root that SELECT reaches
during its descent and whose depth has reached maxDepth is returned
immediately, even if it has children.  The exclusion of the root is
forced: the Python loop checks the depth only at its bottom, after
descending into a child, so the depth of the root argument itself is never
compared against maxDepth and the descent continues into its children
(see the counterexample theorem). -/
theorem mcts_select_depth_stop (pick : ℕ) (score : MCTSTree → MCTSTree → ℚ)
    (maxD : ℕ) :
    ∀ (t : MCTSTree), ∀ u ∈ (selectReached pick score maxD t).tail,
      maxD ≤ u.state.depth → mcts_select pick score maxD t = u := by
  intro t
  induction t using mcts_select_go.induct pick score maxD with
  | case1 x uv h =>
    intro u hu hu2
    unfold selectReached at hu
    rw [select_go_unvis h] at hu
    simp at hu
  | case2 x uv h hc =>
    intro u hu hu2
    have h2 : unvisChildren x = [] := not_not.mp h
    unfold selectReached at hu
    rw [select_go_leaf h2 hc] at hu
    simp at hu
  | case3 x uv h hc hb =>
    intro u hu hu2
    have h2 : unvisChildren x = [] := not_not.mp h
    unfold selectReached at hu
    rw [select_go_none h2 hc hb] at hu
    simp at hu
  | case4 x uv h hc f best hb hstop =>
    intro u hu hu2
    have h2 : unvisChildren x = [] := not_not.mp h
    unfold selectReached at hu
    rw [select_go_stop h2 hc hb hstop] at hu
    simp only [List.tail_cons, List.mem_singleton] at hu
    subst hu
    unfold mcts_select
    rw [select_go_stop h2 hc hb hstop]
  | case5 x uv h hc f best hb hstop hw ih =>
    intro u hu hu2
    have h2 : unvisChildren x = [] := not_not.mp h
    unfold selectReached at hu
    rw [select_go_descend h2 hc hb hstop] at hu
    simp only [List.tail_cons] at hu
    unfold mcts_select
    rw [select_go_descend h2 hc hb hstop]
    obtain ⟨l, hl⟩ := selectReached_cons pick score maxD best
    unfold selectReached at hl
    rw [hl] at hu
    rcases List.mem_cons.mp hu with hu | hu
    · subst hu
      push_neg at hstop
      exact absurd hu2 (not_le.mpr hstop.2)
    · have := ih u (by unfold selectReached; rw [hl]; simpa using hu) hu2
      unfold mcts_select at this
      exact this

/-- Constant UCT score function used for the concrete select scenarios;
with a single candidate child the argmax is independent of the scores. -/
def uctZero : MCTSTree → MCTSTree → ℚ := fun _ _ => 0

/-- Unvisited grandchild at depth 2. -/
def cexC2C : MCTSTree :=
  .mk { current_idea := "c", depth := 2 } (some "review_and_refine") 0 0 []

/-- Visited child at depth 1 = maxDepth holding an unvisited child. -/
def cexC2A : MCTSTree :=
  .mk { current_idea := "a", depth := 1 } (some "retrieve_and_refine") 1 0 [cexC2C]

/-- Root with the single visited child cexC2A. -/
def cexC2root : MCTSTree :=
  .mk { current_idea := "r", depth := 0 } none 2 0 [cexC2A]

/-- C2 (counterexample): with maxDepth 1, the UCT descent moves from the
root into its only child cexC2A, and the bottom depth check returns cexC2A
at once although cexC2A has the unvisited child cexC2C: a node reached
during SELECT descent has a child with zero visits, yet SELECT does not
return one of those unvisited children. -/
theorem mcts_select_unvisited_skipped_cex :
    mcts_select 0 uctZero 1 cexC2root = cexC2A ∧
    cexC2A ∈ selectReached 0 uctZero 1 cexC2root ∧
    unvisChildren cexC2A = [cexC2C] ∧
    mcts_select 0 uctZero 1 cexC2root ∉ unvisChildren cexC2A := by
  have h2 : unvisChildren cexC2root = [] := rfl
  have hc : ¬ cexC2root.children = [] := by
    simp [cexC2root, MCTSTree.children]
  have hb : bestByUCT (uctZero cexC2root) cexC2root.children = some (0, cexC2A) := rfl
  have hstop : cexC2A.children = [] ∨ 1 ≤ cexC2A.state.depth := by
    right
    norm_num [cexC2A, MCTSTree.state]
  have hgo : mcts_select_go 0 uctZero 1 cexC2root = (cexC2A, [cexC2root, cexC2A]) :=
    select_go_stop h2 hc hb hstop
  have hsel : mcts_select 0 uctZero 1 cexC2root = cexC2A := by
    unfold mcts_select
    rw [hgo]
  have hunv : unvisChildren cexC2A = [cexC2C] := rfl
  refine ⟨hsel, ?_, hunv, ?_⟩
  · unfold selectReached
    rw [hgo]
    simp
  · rw [hsel, hunv]
    simp only [List.mem_singleton]
    intro hAC
    have := congrArg MCTSTree.visits hAC
    simp [cexC2A, cexC2C, MCTSTree.visits] at this

/-- Unvisited child of the depth-0 root. -/
def cexC5B : MCTSTree :=
  .mk { current_idea := "b", depth := 1 } (some "refresh_idea") 0 0 []

/-- Root at depth 0, which already meets maxDepth = 0. -/
def cexC5root : MCTSTree :=
  .mk { current_idea := "r", depth := 0 } none 0 0 [cexC5B]

/-- C5 (counterexample): with maxDepth 0 the root itself has depth at
least maxDepth and has a child, but SELECT does not stop at the root: the
loop never compares the depth of its starting node and returns the
unvisited child cexC5B, a child of a node whose depth reached maxDepth. -/
theorem mcts_select_root_depth_unchecked_cex :
    cexC5root ∈ selectReached 0 uctZero 0 cexC5root ∧
    0 ≤ cexC5root.state.depth ∧
    mcts_select 0 uctZero 0 cexC5root = cexC5B ∧
    cexC5B ≠ cexC5root ∧ cexC5B ∈ cexC5root.children := by
  have hu : unvisChildren cexC5root = [cexC5B] := rfl
  have h : unvisChildren cexC5root ≠ [] := by
    intro hcon
    rw [hu] at hcon
    cases hcon
  have hgo : mcts_select_go 0 uctZero 0 cexC5root =
      (((unvisChildren cexC5root)[0 % (unvisChildren cexC5root).length]?).getD cexC5root,
        [cexC5root]) :=
    select_go_unvis h
  refine ⟨?_, by norm_num, ?_, ?_, ?_⟩
  · unfold selectReached
    rw [hgo]
    simp
  · unfold mcts_select
    rw [hgo]
    rfl
  · intro hBR
    have := congrArg MCTSTree.children hBR
    simp only [cexC5B, cexC5root, MCTSTree.children] at this
    cases this
  · simp [cexC5root, cexC5B, MCTSTree.children]

/-- Root with an unvisited child, for the C2 witness. -/
def witC2c : MCTSTree :=
  .mk { current_idea := "fresh", depth := 1 } (some "refresh_idea") 0 0 []

/-- Root with an unvisited child, for the C2 witness. -/
def witC2root : MCTSTree :=
  .mk { current_idea := "root", depth := 0 } none 1 0 [witC2c]

theorem mcts_select_unvisited_first_witness :
    mcts_select 0 uctZero 5 witC2root ∈ unvisChildren witC2root := by
  refine ((mcts_select_unvisited_first 0 uctZero 5 witC2root).1 ?_).2
  have hu : unvisChildren witC2root = [witC2c] := rfl
  intro hcon
  rw [hu] at hcon
  cases hcon

/-- Deep visited leaf, for the C5 witness. -/
def witC5A : MCTSTree :=
  .mk { current_idea := "deep", depth := 3 } (some "review_and_refine") 1 0 []

/-- Root whose only child witC5A lies beyond maxDepth 2. -/
def witC5root : MCTSTree :=
  .mk { current_idea := "root", depth := 0 } none 1 0 [witC5A]

theorem mcts_select_depth_stop_witness :
    mcts_select 0 uctZero 2 witC5root = witC5A := by
  have h2 : unvisChildren witC5root = [] := rfl
  have hc : ¬ witC5root.children = [] := by
    simp [witC5root, MCTSTree.children]
  have hb : bestByUCT (uctZero witC5root) witC5root.children = some (0, witC5A) := rfl
  have hstop : witC5A.children = [] ∨ 2 ≤ witC5A.state.depth := Or.inl rfl
  have hgo : mcts_select_go 0 uctZero 2 witC5root = (witC5A, [witC5root, witC5A]) :=
    select_go_stop h2 hc hb hstop
  refine mcts_select_depth_stop 0 uctZero 2 witC5root witC5A ?_ ?_
  · unfold selectReached
    rw [hgo]
    simp
  · norm_num [witC5A, MCTSTree.state]

theorem update_fold_invariant (rs : List ℚ) :
    ∀ (s : NodeStats),
      (rs.foldl NodeStats.update s).visits = s.visits + rs.length ∧
      ((rs.foldl NodeStats.update s).value : ℚ) * ((rs.foldl NodeStats.update s).visits : ℚ) =
        s.value * (s.visits : ℚ) + rs.sum := by
  induction rs with
  | nil => intro s; simp
  | cons r rs ih =>
    intro s
    rw [List.foldl_cons]
    obtain ⟨h1, h2⟩ := ih (s.update r)
    have hn : ((s.visits : ℚ) + 1) ≠ 0 := by positivity
    have hupd : (s.update r).value * ((s.update r).visits : ℚ) = s.value * s.visits + r := by
      unfold NodeStats.update
      field_simp
      ring
    refine ⟨by simpa [NodeStats.update, Nat.add_comm, Nat.add_assoc, Nat.add_left_comm] using h1, ?_⟩
    rw [h2, hupd]
    simp only [List.sum_cons]
    ring

/-- C3: starting from zero statistics, k update calls leave N equal to k
and V equal to the exact arithmetic mean of the rewards (exact rational
arithmetic stands in for the float tolerance of the claim). -/
theorem mcts_update_running_mean (rs : List ℚ) (h : rs ≠ []) :
    (rs.foldl NodeStats.update ⟨0, 0⟩).visits = rs.length ∧
    (rs.foldl NodeStats.update ⟨0, 0⟩).value = rs.sum / (rs.length : ℚ) := by
  obtain ⟨h1, h2⟩ := update_fold_invariant rs ⟨0, 0⟩
  simp only [Nat.zero_add] at h1
  rw [h1] at h2
  have hlen : ((rs.length : ℚ)) ≠ 0 := by
    have := List.length_pos.mpr h
    positivity
  constructor
  · exact h1
  · field_simp
    simpa using h2

theorem mcts_update_running_mean_witness :
    ([(1 : ℚ), 2].foldl NodeStats.update ⟨0, 0⟩).visits = 2 ∧
    ([(1 : ℚ), 2].foldl NodeStats.update ⟨0, 0⟩).value = 3 / 2 := by
  have h := mcts_update_running_mean [(1 : ℚ), 2] (by simp)
  constructor
  · simpa using h.1
  · have := h.2
    norm_num at this
    simpa using this

/-- Embedding of mcts_backpropagate (src/app.py lines 1726-1742) on the
explicit leaf-to-root parent chain: the head of the list is the leaf the
reward arrives at, the last entry is the root, whose parent reference in
Python is None and ends the while loop.  Each visited node receives the
visit increment and incremental-average value update of NodeStats.update
with the current reward, and the reward is multiplied by the discount
factor before moving to the parent. -/
def mcts_backpropagate (discount : ℚ) : ℚ → List NodeStats → List NodeStats
  | _, [] => []
  | reward, n :: rest =>
    n.update reward :: mcts_backpropagate discount (reward * discount) rest

/-- C4: backpropagating reward r with discount d along the parent chain of
a leaf at depth d touches exactly the nodes of the chain (the d+1 nodes
from leaf to root) and the node i hops above the leaf receives an update
call with reward r * d^i, which in particular increments its N by exactly
one.  The witness instantiates the depth-2 scenario of the
specification: discount 0.9 and reward 1.0 give the root, two hops above
the leaf, an update with reward 0.81. -/
theorem mcts_backpropagate_discounted_updates (discount reward : ℚ)
    (path : List NodeStats) :
    (mcts_backpropagate discount reward path).length = path.length ∧
    ∀ i : ℕ, (mcts_backpropagate discount reward path)[i]? =
      (path[i]?).map (fun s => s.update (reward * discount ^ i)) := by
  induction path generalizing reward with
  | nil => exact ⟨rfl, fun i => by simp [mcts_backpropagate]⟩
  | cons n rest ih =>
    refine ⟨by simpa [mcts_backpropagate] using (ih (reward * discount)).1, fun i => ?_⟩
    match i with
    | 0 => simp [mcts_backpropagate]
    | i + 1 =>
      simp only [mcts_backpropagate, List.getElem?_cons_succ]
      rw [(ih (reward * discount)).2 i]
      congr 1
      funext s
      congr 1
      ring

theorem mcts_backpropagate_discounted_updates_witness :
    (mcts_backpropagate (9 / 10) 1 [⟨0, 0⟩, ⟨0, 0⟩, ⟨0, 0⟩])[2]? =
      some (NodeStats.update ⟨0, 0⟩ ((81 : ℚ) / 100)) := by
  have h := (mcts_backpropagate_discounted_updates (9 / 10) 1
    [⟨0, 0⟩, ⟨0, 0⟩, ⟨0, 0⟩]).2 2
  rw [h]
  norm_num

/-- Outcome of the call review_agent.unified_review inside mcts_evaluate
(src/app.py lines 1692-1722): ok models a truthy review_data dictionary
carrying the per-aspect scores and the (possibly null) average_score;
empty models a falsy review_data (None or empty dict); exn models an
exception raised by the call, which the except handler of mcts_evaluate
absorbs. -/
inductive ReviewResult where
  | ok (scores : List (String × ℚ)) (average_score : Option ℚ)
  | empty
  | exn
deriving DecidableEq

/-- Embedding of mcts_evaluate (src/app.py lines 1692-1722).  The first
argument is the average_score already stored on the node state, the second
the node depth, the third the outcome of the review call.  Python control
flow: if node.state.average_score > 0, return average_score / 10 without
calling the reviewer (when that attribute holds None, the comparison
raises TypeError, which the except handler turns into 0.5); otherwise
consult the review outcome: a truthy review_data with positive
average_score yields average_score / 10, a truthy review_data whose
average_score is null or not positive yields 0.0, a falsy review_data
falls through to the depth fallback 1 / (depth + 1), and an exception
yields the default middle reward 0.5.  The function is total: no branch
propagates an exception to the caller. -/
def mcts_evaluate (avgScore : Option ℚ) (depth : ℕ) (review : ReviewResult) : ℚ :=
  match avgScore with
  | none => 1 / 2
  | some a =>
    if 0 < a then a / 10
    else
      match review with
      | .exn => 1 / 2
      | .empty => 1 / ((depth : ℚ) + 1)
      | .ok _ none => 0
      | .ok _ (some avg) => if 0 < avg then avg / 10 else 0

/-- A review outcome on which the Scorer failed: it returned nothing or it
raised.  (A truthy result with a null average is handled by yet another
branch, returning 0.0, which only widens the policy mix.) -/
def scorerFailed (r : ReviewResult) : Prop := r = .empty ∨ r = .exn

/-- The single-consistent-policy property asserted by the claim: every
Scorer failure yields 1 / (depth + 1), or every Scorer failure yields a
flat 0.5. -/
def evaluateSinglePolicy : Prop :=
  (∀ (a : Option ℚ) (d : ℕ) (r : ReviewResult), scorerFailed r →
    mcts_evaluate a d r = 1 / ((d : ℚ) + 1)) ∨
  (∀ (a : Option ℚ) (d : ℕ) (r : ReviewResult), scorerFailed r →
    mcts_evaluate a d r = 1 / 2)

/-- C6 (counterexample): neither fallback policy is applied consistently.
At depth 0 with a stored average of 0, an empty review result yields
1 / (0 + 1) = 1 while an exception yields 0.5, so the flat-0.5 policy
fails on the first input and the depth-decay policy fails on the second:
the code mixes both policies (and a third, 0.0, for a truthy review
without a positive average). -/
theorem mcts_evaluate_single_policy_cex : ¬ evaluateSinglePolicy := by
  intro h
  rcases h with h | h
  · have := h (some 0) 0 .exn (Or.inr rfl)
    norm_num [mcts_evaluate] at this
  · have := h (some 0) 0 .empty (Or.inl rfl)
    norm_num [mcts_evaluate] at this

/-- C6 (amended): EVALUATE never propagates an exception (the embedded
function is total, every branch returning a reward), but the fallback is a
mix of policies rather than a single one: when the node carries no
positive cached average, a falsy review result yields 1 / (depth + 1), an
exception yields the flat 0.5, and a truthy review result without a
positive average yields 0.0; additionally a node whose stored
average_score attribute is None lands in the exception handler (None > 0
raises TypeError) and also yields 0.5. -/
theorem mcts_evaluate_fallback_mix (a : ℚ) (d : ℕ) (ha : a ≤ 0) :
    mcts_evaluate (some a) d .empty = 1 / ((d : ℚ) + 1) ∧
    mcts_evaluate (some a) d .exn = 1 / 2 ∧
    (∀ scores, mcts_evaluate (some a) d (.ok scores none) = 0) ∧
    (∀ scores avg, avg ≤ 0 → mcts_evaluate (some a) d (.ok scores (some avg)) = 0) ∧
    (∀ r, mcts_evaluate none d r = 1 / 2) := by
  have hna : ¬ 0 < a := not_lt.mpr ha
  refine ⟨?_, ?_, ?_, ?_, ?_⟩
  · simp [mcts_evaluate, hna]
  · simp [mcts_evaluate, hna]
  · intro scores
    simp [mcts_evaluate, hna]
  · intro scores avg havg
    simp [mcts_evaluate, hna, not_lt.mpr havg]
  · intro r
    simp [mcts_evaluate]

theorem mcts_evaluate_fallback_mix_witness :
    mcts_evaluate (some 0) 3 .empty = 1 / 4 ∧
    mcts_evaluate (some 0) 3 .exn = 1 / 2 := by
  have h := mcts_evaluate_fallback_mix 0 3 (le_refl 0)
  refine ⟨?_, h.2.1⟩
  rw [h.1]
  norm_num

/-- Result of one call of the exploration branch of the step handler
(src/app.py lines 1018-1078): the JSON payload of the 200 response, the
429 busy rejection, or the 500 error response produced by the outer
exception handler (src/app.py lines 1424-1428). -/
inductive StepOutcome (R E : Type) where
  | ok (r : R)
  | busyRejected
  | error (e : E)

/-- Embedding of the generate branch of the step handler (src/app.py
lines 1018-1078) together with its exception exit (lines 1424-1428).  The
state threaded through is the session busy flag exploration_in_progress
and the tree.  The body parameter abstracts the work inside the try block
(the SELECT, EVALUATE, EXPAND, BACKPROPAGATE iteration plus best-child
bookkeeping, lines 1028-1077): given the tree it returns the tree as left
by its in-place mutations together with either the response payload or the
exception it raised.  Control flow of the source: when the flag is set the
handler returns the 429 busy response immediately, before any MCTS work
and without touching flag or tree; otherwise the flag is set, the body
runs, and the finally block (line 1078) clears the flag on the normal exit
while the outer except handler (line 1425) clears it on the exception
exit. -/
def step {T R E : Type} (busy : Bool) (tree : T) (body : T → T × Except E R) :
    Bool × T × StepOutcome R E :=
  if busy then (busy, tree, .busyRejected)
  else
    match body tree with
    | (t2, .ok r) => (false, t2, .ok r)
    | (t2, .error e) => (false, t2, .error e)

/-- C7: a request arriving while the busy flag is set is rejected
immediately with the busy result, leaves the tree unchanged and performs
none of the MCTS work (the outcome is the same for every body, so no
SELECT, EVALUATE, EXPAND or BACKPROPAGATE step runs and nothing is
queued); and when the flag was acquired, it is cleared again on both exit
paths of the handler, the normal return and the exception, so no exception
leaves the session locked.  On the busy-rejection path the flag stays set
because it is owned by the in-flight request whose cleanup will clear
it. -/
theorem step_busy_flag_guard {T R E : Type} (tree : T)
    (body altBody : T → T × Except E R) :
    step true tree body = (true, tree, .busyRejected) ∧
    step true tree body = step true tree altBody ∧
    (step false tree body).1 = false := by
  refine ⟨rfl, rfl, ?_⟩
  unfold step
  match h : body tree with
  | (t2, .ok r) => simp [h]
  | (t2, .error e) => simp [h]

/-- Embedding of MCTSNode.add_child (src/src/mcts/node.py lines 152-156)
as used by mcts_expand: a new node with the given state and action, zero
visits, zero value and no children is appended to the children list of the
parent.  Python returns the new child and mutates the parent in place; the
pure embedding returns the updated parent. -/
def MCTSTree.add_child (t : MCTSTree) (st : MCTSState) (action : String) : MCTSTree :=
  .mk t.state t.action t.visits t.value
    (t.children ++ [.mk st (some action) 0 0 []])

/-- State fields written onto a freshly expanded child by the review block
of mcts_expand (src/app.py lines 1601-1640): a truthy review with a null
average records failure as average 0 and reward 0; a truthy review with
scores or a positive average stores the scores and the average and derives
reward = average / 10; any other truthy review, a falsy review and an
exception during the review all record average 0 and reward 0.  The child
is already attached when this runs, so review failure never removes it. -/
def evalChild (review : ReviewResult) (st : MCTSState) : MCTSState :=
  match review with
  | .ok scores avgOpt =>
    match avgOpt with
    | none => { st with average_score := some 0, reward := 0 }
    | some avg =>
      if scores ≠ [] ∨ 0 < avg then
        { st with review_scores := scores, average_score := some avg,
                  reward := avg / 10 }
      else
        { st with average_score := some 0, reward := 0 }
  | .empty => { st with average_score := some 0, reward := 0 }
  | .exn => { st with average_score := some 0, reward := 0 }

/-- The fixed action list of mcts_expand (src/app.py line 1579). -/
def valid_actions : List String :=
  ["review_and_refine", "retrieve_and_refine", "refresh_idea"]

/-- One iteration of the action loop of mcts_expand (src/app.py lines
1581-1643): skip the action when some existing child already carries it,
otherwise run the mutator (execute_mcts_action, which returns None on any
internal exception, src/app.py lines 1568-1571); on success attach the
child, overwrite its depth with parent depth + 1 (line 1596) and let the
review block fill its score fields; on mutator failure attach nothing. -/
def expandStep (mutator : MCTSState → String → Option MCTSState)
    (review : MCTSState → ReviewResult) (n : MCTSTree) (action : String) : MCTSTree :=
  if n.children.any (fun c => c.action == some action) then n
  else
    match mutator n.state action with
    | none => n
    | some st =>
      let stDepth := { st with depth := n.state.depth + 1 }
      n.add_child (evalChild (review stDepth) stDepth) action

/-- Embedding of mcts_expand (src/app.py lines 1574-1644): a no-op at or
beyond maxDepth, otherwise the action loop over the three valid actions. -/
def mcts_expand (mutator : MCTSState → String → Option MCTSState)
    (review : MCTSState → ReviewResult) (maxDepth : ℕ) (node : MCTSTree) : MCTSTree :=
  if maxDepth ≤ node.state.depth then node
  else valid_actions.foldl (expandStep mutator review) node

/-- Number of children of a node carrying the given action label. -/
def countAction (action : String) (t : MCTSTree) : ℕ :=
  (t.children.filter fun c => c.action == some action).length

theorem expandStep_state (mutator : MCTSState → String → Option MCTSState)
    (review : MCTSState → ReviewResult) (n : MCTSTree) (a : String) :
    (expandStep mutator review n a).state = n.state := by
  unfold expandStep
  split
  · rfl
  · split
    · rfl
    · cases n
      rfl

theorem expandFold_state (mutator : MCTSState → String → Option MCTSState)
    (review : MCTSState → ReviewResult) (l : List String) :
    ∀ (n : MCTSTree), (l.foldl (expandStep mutator review) n).state = n.state := by
  induction l with
  | nil => intro n; rfl
  | cons a l ih =>
    intro n
    rw [List.foldl_cons, ih, expandStep_state]

theorem countAction_expandStep (mutator : MCTSState → String → Option MCTSState)
    (review : MCTSState → ReviewResult) (n : MCTSTree) (a act : String) :
    countAction a (expandStep mutator review n act) ≤ max (countAction a n) 1 := by
  unfold expandStep
  split
  · exact le_max_left _ _
  · next hany =>
    split
    · exact le_max_left _ _
    · next st hmut =>
      cases n with
      | mk s ac v q cs =>
        unfold countAction MCTSTree.add_child
        simp only [MCTSTree.children, List.filter_append, List.length_append]
        by_cases haa : act = a
        · subst haa
          have hcs : (List.filter (fun c => c.action == some act) cs).length = 0 := by
            rw [List.length_eq_zero, List.filter_eq_nil_iff]
            intro c hc
            simp only [MCTSTree.children, List.any_eq_true, not_exists, not_and,
              Bool.not_eq_true] at hany
            simp [hany c hc]
          rw [hcs]
          simp only [Nat.zero_add]
          refine le_trans (List.length_filter_le _ _) ?_
          simp
        · simp [MCTSTree.action, haa]

theorem countAction_expandFold (mutator : MCTSState → String → Option MCTSState)
    (review : MCTSState → ReviewResult) (a : String) :
    ∀ (l : List String) (n : MCTSTree),
      countAction a (l.foldl (expandStep mutator review) n) ≤ max (countAction a n) 1 := by
  intro l
  induction l with
  | nil => intro n; exact le_max_left _ _
  | cons act l ih =>
    intro n
    rw [List.foldl_cons]
    have h1 := ih (expandStep mutator review n act)
    have h2 := countAction_expandStep mutator review n a act
    omega

theorem countAction_expandStep_zero (mutator : MCTSState → String → Option MCTSState)
    (review : MCTSState → ReviewResult) {n : MCTSTree} {a : String} (act : String)
    (hmut : mutator n.state a = none) (hc : countAction a n = 0) :
    countAction a (expandStep mutator review n act) = 0 := by
  unfold expandStep
  split
  · exact hc
  · split
    · exact hc
    · next st hmat =>
      by_cases haa : act = a
      · subst haa
        rw [hmut] at hmat
        cases hmat
      · cases n with
        | mk s ac v q cs =>
          unfold countAction at hc ⊢
          unfold MCTSTree.add_child
          simp only [MCTSTree.children, List.filter_append, List.length_append]
          simp only [MCTSTree.children] at hc
          rw [hc]
          simp [MCTSTree.action, haa]

theorem countAction_expandFold_zero (mutator : MCTSState → String → Option MCTSState)
    (review : MCTSState → ReviewResult) {a : String} :
    ∀ (l : List String) (n : MCTSTree),
      mutator n.state a = none → countAction a n = 0 →
      countAction a (l.foldl (expandStep mutator review) n) = 0 := by
  intro l
  induction l with
  | nil => intro n _ hc; exact hc
  | cons act l ih =>
    intro n hmut hc
    rw [List.foldl_cons]
    refine ih (expandStep mutator review n act) ?_ ?_
    · rw [expandStep_state]; exact hmut
    · exact countAction_expandStep_zero mutator review act hmut hc

theorem countAction_expand_le (mutator : MCTSState → String → Option MCTSState)
    (review : MCTSState → ReviewResult) (maxDepth : ℕ) (n : MCTSTree) (a : String) :
    countAction a (mcts_expand mutator review maxDepth n) ≤ max (countAction a n) 1 := by
  unfold mcts_expand
  split
  · exact le_max_left _ _
  · exact countAction_expandFold mutator review a valid_actions n

/-- C8: for every mutator, reviewer, depth bound and action label, a node
whose children carry the label at most once keeps that invariant under any
number of EXPAND calls (the loop only attaches a child for an action no
existing child carries, so EXPAND never produces two children under one
parent sharing an action label), and an action whose mutator application
fails (returns None) attaches no placeholder: when no child carried the
label and the mutator fails on it, no child carries it after EXPAND
either. -/
theorem mcts_expand_unique_actions (mutator : MCTSState → String → Option MCTSState)
    (review : MCTSState → ReviewResult) (maxDepth : ℕ) (t : MCTSTree) (a : String)
    (k : ℕ) (h1 : countAction a t ≤ 1) :
    countAction a (((mcts_expand mutator review maxDepth)^[k]) t) ≤ 1 ∧
    (mutator t.state a = none → countAction a t = 0 →
      countAction a (mcts_expand mutator review maxDepth t) = 0) := by
  constructor
  · induction k with
    | zero => simpa using h1
    | succ k ih =>
      rw [Function.iterate_succ_apply']
      have h2 := countAction_expand_le mutator review maxDepth
        (((mcts_expand mutator review maxDepth)^[k]) t) a
      omega
  · intro hmut hc
    unfold mcts_expand
    split
    · exact hc
    · exact countAction_expandFold_zero mutator review valid_actions t hmut hc

/-- Mutator for the C8 witness: fails on refresh_idea, succeeds on the
other actions. -/
def mutC8 : MCTSState → String → Option MCTSState := fun st act =>
  if act == "refresh_idea" then none
  else some { st with current_idea := st.current_idea ++ "+" ++ act }

/-- Reviewer for the C8 witness: always returns a fixed positive review. -/
def revC8 : MCTSState → ReviewResult := fun _ => .ok [("novelty", 7)] (some 7)

/-- Childless root for the C8 witness. -/
def witC8 : MCTSTree := .mk { current_idea := "seed", depth := 0 } none 0 0 []

theorem mcts_expand_unique_actions_witness :
    countAction "review_and_refine" (((mcts_expand mutC8 revC8 3)^[2]) witC8) ≤ 1 ∧
    countAction "refresh_idea" (mcts_expand mutC8 revC8 3 witC8) = 0 := by
  refine ⟨(mcts_expand_unique_actions mutC8 revC8 3 witC8 "review_and_refine" 2
    (by decide)).1, ?_⟩
  exact (mcts_expand_unique_actions mutC8 revC8 3 witC8 "refresh_idea" 0
    (by decide)).2 (by decide) (by decide)

mutual
/-- Runtime MCTSNode object of src/src/mcts/node.py (lines 123-150): id,
state, action, parent, children, visits, value.  The parent back-reference
is traversal-only and omitted; exploration_weight, the fixed actions list
and the reviews dictionary play no role in the reconstruction claim.
Because Python is dynamically typed, the state attribute can hold either
an MCTSState or, after the buggy deserialization below, a whole MCTSNode:
the StateOrNode sum captures exactly that. -/
inductive MCTSNode where
  | mk (id : String) (state : StateOrNode) (action : Option String) (visits : ℕ)
      (value : ℚ) (children : List MCTSNode)
/-- Value stored in the state attribute of a runtime node. -/
inductive StateOrNode where
  | ofState (s : MCTSState)
  | ofNode (n : MCTSNode)
end

/-- Projection: node id. -/
def MCTSNode.id : MCTSNode → String
  | .mk i _ _ _ _ _ => i

/-- Projection: the state attribute. -/
def MCTSNode.state : MCTSNode → StateOrNode
  | .mk _ s _ _ _ _ => s

/-- Projection: the action label. -/
def MCTSNode.action : MCTSNode → Option String
  | .mk _ _ a _ _ _ => a

/-- Projection: the visit count. -/
def MCTSNode.visits : MCTSNode → ℕ
  | .mk _ _ _ v _ _ => v

/-- Projection: the running value. -/
def MCTSNode.value : MCTSNode → ℚ
  | .mk _ _ _ _ q _ => q

/-- Projection: the children list. -/
def MCTSNode.children : MCTSNode → List MCTSNode
  | .mk _ _ _ _ _ cs => cs

/-- Whether the state attribute holds a node instead of a state. -/
def StateOrNode.isNode : StateOrNode → Bool
  | .ofState _ => false
  | .ofNode _ => true

/-- Serialized form of one node as produced by MCTSNode.to_json
(src/src/mcts/node.py lines 189-209): id, action, state snapshot, visits,
value and recursively serialized children.  The dictionary also carries
depth and reward (copies of state fields), the reviews dictionary and a
parent_id, none of which build_tree_from_json uses to reconstruct
structure; they are omitted here.  The MCTSState json image restores
exactly the modelled state fields (MCTSState.to_json/from_json, lines
87-120), so the embedding identifies a state with its snapshot. -/
inductive JNode where
  | mk (id : String) (action : Option String) (state : MCTSState) (visits : ℕ)
      (value : ℚ) (children : List JNode)

/-- Placeholder for the state snapshot of an ill-formed node whose state
attribute holds a node; serializing such a tree is never needed by the
round-trip claim and cannot happen for trees built by the constructors. -/
def dummyState : MCTSState := {}

/-- Projection: serialized children. -/
def JNode.children : JNode → List JNode
  | .mk _ _ _ _ _ cs => cs

mutual
/-- Embedding of MCTSNode.to_json (src/src/mcts/node.py lines 189-209). -/
def MCTSNode.to_json : MCTSNode → JNode
  | .mk i st a v q cs =>
    .mk i a (match st with | .ofState s => s | .ofNode _ => dummyState) v q
      (toJsonList cs)
/-- Serialization of a children list, in order. -/
def toJsonList : List MCTSNode → List JNode
  | [] => []
  | n :: ns => MCTSNode.to_json n :: toJsonList ns
end

/-- Placeholder for the fresh uuid4 value MCTSNode.__init__ draws
(src/src/mcts/node.py line 137); its exact value is irrelevant to the
claims. -/
def freshUuid : String := "fresh-uuid"

/-- Embedding of MCTSNode.add_child (src/src/mcts/node.py lines 152-156)
on runtime nodes: constructs MCTSNode(state=state, action=action,
parent=self), i.e. a new node with a fresh uuid, zero visits, zero value
and no children, and appends it to the children of the parent.  The
signature declares state : MCTSState, but Python does not check: the
caller in build_tree_from_json passes a node, which is why the parameter
has the sum type. -/
def MCTSNode.add_child (self : MCTSNode) (state : StateOrNode)
    (action : Option String) : MCTSNode :=
  .mk self.id self.state self.action self.visits self.value
    (self.children ++ [.mk freshUuid state action 0 0 []])

/-- Embedding of MCTSNode.from_json (src/src/mcts/node.py lines 211-233):
rebuilds a childless node carrying the serialized id, state, action,
visits and value. -/
def MCTSNode.from_json (data : JNode) : MCTSNode :=
  match data with
  | .mk i a s v q _ => .mk i (.ofState s) a v q []

mutual
/-- Embedding of MCTSNode.build_tree_from_json (src/src/mcts/node.py lines
246-258): rebuild the node with from_json, then for each serialized child
rebuild it recursively and attach it with node.add_child(child) — passing
the rebuilt child node where add_child expects a state. -/
def MCTSNode.build_tree_from_json : JNode → MCTSNode
  | .mk i a s v q cds =>
    buildChildren (MCTSNode.from_json (.mk i a s v q cds)) cds
/-- The loop over serialized children in build_tree_from_json. -/
def buildChildren : MCTSNode → List JNode → MCTSNode
  | node, [] => node
  | node, cd :: cds =>
    buildChildren (node.add_child (.ofNode (MCTSNode.build_tree_from_json cd)) none) cds
end

/-- Original serialized-then-rebuilt child: action review_and_refine,
3 visits, value 1/2. -/
def c9Child : MCTSNode :=
  .mk "id-child"
    (.ofState { current_idea := "child idea", depth := 1, average_score := some 7 })
    (some "review_and_refine") 3 (1 / 2) []

/-- Original root with the single child c9Child. -/
def c9Root : MCTSNode :=
  .mk "id-root" (.ofState { current_idea := "root idea" }) none 5 (3 / 4) [c9Child]

/-- Tree obtained by deserializing the serialization of c9Root. -/
def c9Rebuilt : MCTSNode := MCTSNode.build_tree_from_json (MCTSNode.to_json c9Root)

/-- C9 (code bug): deserialize(serialize(root)) does not reconstruct the
tree.  build_tree_from_json attaches each rebuilt child through
node.add_child(child), but add_child expects a state and wraps its
argument in a brand new node: the rebuilt root therefore has a wrapper
child with action None, zero visits, zero value, a fresh uuid, and the
actual child node stored in its state attribute, while the original child
carried action review_and_refine, 3 visits and an MCTSState.  The theorem
evaluates both trees at the failing input. -/
theorem build_tree_from_json_wraps_children :
    c9Rebuilt.children.map MCTSNode.action = [none] ∧
    c9Root.children.map MCTSNode.action = [some "review_and_refine"] ∧
    c9Rebuilt.children.map MCTSNode.visits = [0] ∧
    c9Root.children.map MCTSNode.visits = [3] ∧
    (c9Rebuilt.children.map fun c => c.state.isNode) = [true] ∧
    (c9Root.children.map fun c => c.state.isNode) = [false] :=
  ⟨rfl, rfl, rfl, rfl, rfl, rfl⟩

/-- Embedding of MCTSState.__eq__ (src/src/mcts/node.py lines 43-46): two
states compare equal exactly when their current_idea strings are equal;
the isinstance guard is enforced by the type.  Python returns a bool, so
the embedding does. -/
def MCTSState.pyEq (s t : MCTSState) : Bool :=
  s.current_idea == t.current_idea

/-- Embedding of MCTSState.__hash__ (src/src/mcts/node.py lines 48-49):
the hash of the current_idea string, with the Python string hash abstract
as a parameter. -/
def MCTSState.pyHash (h : String → ℕ) (s : MCTSState) : ℕ :=
  h s.current_idea

/-- C10: state equality holds exactly when the content strings are equal,
regardless of depth, research goal or any other field (the two sides are
quantified over all states), and states with equal content hash equally
for every hash function of the content. -/
theorem mcts_state_eq_by_content (s t : MCTSState) (h : String → ℕ) :
    (MCTSState.pyEq s t = true ↔ s.current_idea = t.current_idea) ∧
    (s.current_idea = t.current_idea → MCTSState.pyHash h s = MCTSState.pyHash h t) := by
  constructor
  · simp [MCTSState.pyEq]
  · intro he
    simp [MCTSState.pyHash, he]

/-- State with content "same" at depth 0 under one goal. -/
def witC10a : MCTSState :=
  { current_idea := "same", depth := 0, research_goal := some "g1" }

/-- State with content "same" at depth 5 under another goal. -/
def witC10b : MCTSState :=
  { current_idea := "same", depth := 5, research_goal := some "g2" }

theorem mcts_state_eq_by_content_witness :
    MCTSState.pyEq witC10a witC10b = true ∧
    MCTSState.pyHash String.length witC10a = MCTSState.pyHash String.length witC10b := by
  refine ⟨(mcts_state_eq_by_content witC10a witC10b String.length).1.mpr rfl,
    (mcts_state_eq_by_content witC10a witC10b String.length).2 rfl⟩
